import Mathlib

/-!
Verification of the saw streaming/batch ETL core against its specification.

The Go source is shallowly embedded: pure fragments become Lean functions,
stateful methods become functions threading the mutated struct, Go runtime
panics (index out of range, failed type assertions) become `none` in an
`Option`-valued result, and Go `error` values are modelled by `SawError`.
Go `float64` metric values are modelled by the linearly ordered `Int`
(the claims under study only use ordering, min and max of metrics); query
ratios (Go `float64` in `[0,1]`) are modelled by `Rat`.
-/

set_option autoImplicit false

namespace Saw

/-- Go `error` values used by the embedded code. -/
inductive SawError where
  | errNotMergeable
  | errMsg (msg : String)
deriving DecidableEq, Repr

/-- Metric is `float64` in the source; the claims only use its linear order. -/
abbrev Metric := Int

/-- Record fed to saws: Go `Datum{Key DatumKey; Value interface{}}`. The
polymorphic value is modelled by `Int` (a metric or a window sequence). -/
structure Datum where
  key : String
  value : Int
deriving DecidableEq, Repr

/-- Go slice store `l[i] = a`; `none` models the index-out-of-range panic. -/
def listSet? {α : Type} (l : List α) (i : Nat) (a : α) : Option (List α) :=
  if i < l.length then some (l.set i a) else none

/-- Insertion step for `sortMetrics`. -/
def insertMetric (x : Metric) : List Metric → List Metric
  | [] => [x]
  | y :: ys => if x ≤ y then x :: y :: ys else y :: insertMetric x ys

/-- Go `sort.Sort(metricSort(buf))`: sorts a metric buffer ascending. Equal
metrics are indistinguishable, so any comparison sort has this behaviour. -/
def sortMetrics (l : List Metric) : List Metric :=
  l.foldr insertMetric []

/-- State of the MRL approximate-quantile sketch (`aggregator.QuantileState`).
`sampleStack` entries are `none` for Go nil slices. -/
structure QuantileState where
  bufferSize : Nat
  leaf : List Metric
  sampleStack : List (Option (List Metric))
  min : Metric
  max : Metric
  hasMetric : Bool
  collapseFlip : Nat
deriving DecidableEq, Repr

/-- Go `NewQuantileState(bufferSize)`; remaining fields are Go zero values. -/
def NewQuantileState (bufferSize : Nat) : QuantileState :=
  { bufferSize := bufferSize, leaf := [], sampleStack := [],
    min := 0, max := 0, hasMetric := false, collapseFlip := 0 }

/-- Body of the `collapse` loop. The Go loop runs while
`leftIdx+rightIdx < bufferSize*2` and each iteration picks exactly one
element, so `fuel = bufferSize*2 - (leftIdx+rightIdx)` counts the remaining
iterations; `none` models a panic (index out of range on a buffer read or on
the `merged[(leftIdx+rightIdx)/2] = pick` store). -/
def collapseLoop (flip : Nat) (left right : List Metric) :
    Nat → Nat → Nat → List Metric → Option (List Metric)
  | 0, _, _, merged => some merged
  | fuel + 1, leftIdx, rightIdx, merged =>
    let step : Option (Metric × Nat × Nat) :=
      if left.length ≤ leftIdx then
        (right.get? rightIdx).map (fun m => (m, leftIdx, rightIdx + 1))
      else if right.length ≤ rightIdx then
        (left.get? leftIdx).map (fun m => (m, leftIdx + 1, rightIdx))
      else
        match left.get? leftIdx, right.get? rightIdx with
        | some lv, some rv =>
          if lv < rv then some (lv, leftIdx + 1, rightIdx)
          else some (rv, leftIdx, rightIdx + 1)
        | _, _ => none
    match step with
    | none => none
    | some (pick, li, ri) =>
      let write : Option (List Metric) :=
        if (li + ri) % 2 = flip then listSet? merged ((li + ri) / 2) pick
        else some merged
      match write with
      | none => none
      | some merged2 => collapseLoop flip left right fuel li ri merged2

/-- Go `QuantileState.collapse` over the receiver fields it reads and writes
(`bufferSize`, `collapseFlip`); returns the updated flip and the merged
buffer, `merged := make([]Metric, bufferSize)` being zero initialised. -/
def collapseCore (bufferSize flip : Nat) (left right : List Metric) :
    Option (Nat × List Metric) :=
  (collapseLoop flip left right (bufferSize * 2) 0 0
      (List.replicate bufferSize 0)).map
    (fun merged => (1 - flip, merged))

/-- Go `qs.collapse(left, right)`: threads the receiver. -/
def QuantileState.collapse (qs : QuantileState) (left right : List Metric) :
    Option (QuantileState × List Metric) :=
  (collapseCore qs.bufferSize qs.collapseFlip left right).map
    (fun p => ({ qs with collapseFlip := p.1 }, p.2))

/-- Go `mergeSampleStack` over the receiver fields it reads and writes
(`bufferSize`, `collapseFlip`, `sampleStack`). The final Go statements pad
the stack with nils only up to length `level` and then store at index
`level`, which is out of range whenever that point is reached, so the
fall-through branch is a panic (`none`). -/
def mergeStackCore (bufferSize flip : Nat)
    (stack : List (Option (List Metric))) (level : Nat)
    (buf : Option (List Metric)) :
    Option (Nat × List (Option (List Metric))) :=
  if h : level < stack.length then
    match stack.get ⟨level, h⟩ with
    | none => some (flip, stack.set level buf)
    | some occupant =>
      match collapseCore bufferSize flip occupant (buf.getD []) with
      | none => none
      | some (flip2, buf2) =>
        mergeStackCore bufferSize flip2 (stack.set level none) (level + 1)
          (some buf2)
  else
    none
termination_by stack.length - level
decreasing_by simp only [List.length_set]; omega

/-- Go `qs.mergeSampleStack(startLevel, buf)`: threads the receiver. -/
def QuantileState.mergeSampleStack (qs : QuantileState) (startLevel : Nat)
    (buf : Option (List Metric)) : Option QuantileState :=
  (mergeStackCore qs.bufferSize qs.collapseFlip qs.sampleStack startLevel
      buf).map
    (fun p => { qs with collapseFlip := p.1, sampleStack := p.2 })

/-- Go `qs.AddMetric(metric)`: append to the leaf, collapse when the leaf
reaches `bufferSize*2`, then update min/max/hasMetric. -/
def QuantileState.AddMetric (qs : QuantileState) (metric : Metric) :
    Option QuantileState :=
  let q1 := { qs with leaf := qs.leaf ++ [metric] }
  let afterCollapse : Option QuantileState :=
    if q1.leaf.length = q1.bufferSize * 2 then
      let left := sortMetrics (q1.leaf.take q1.bufferSize)
      let right := sortMetrics (q1.leaf.drop q1.bufferSize)
      match q1.collapse left right with
      | none => none
      | some (q2, leafCollapsed) =>
        QuantileState.mergeSampleStack { q2 with leaf := [] } 0
          (some leafCollapsed)
    else
      some q1
  match afterCollapse with
  | none => none
  | some q3 =>
    some { q3 with
      min := if q3.hasMetric then (if metric < q3.min then metric else q3.min)
             else metric,
      max := if q3.hasMetric then (if q3.max < metric then metric else q3.max)
             else metric,
      hasMetric := true }

/-- Feeding a list of metrics through `AddMetric` in order. -/
def addAllMetrics (qs : QuantileState) (metrics : List Metric) :
    Option QuantileState :=
  metrics.foldlM QuantileState.AddMetric qs

/-- The `for i := len(other.sampleStack) - 1; i >= 0; i--` loop of
`MergeFrom`: `k` is the number of indices still to process, so index `k-1`
is handled next, walking from the top of the stack down to level 0. -/
def mergeFromStackLoop (stack : List (Option (List Metric))) :
    Nat → QuantileState → Option QuantileState
  | 0, qs => some qs
  | k + 1, qs =>
    match qs.mergeSampleStack k (stack.getD k none) with
    | none => none
    | some q2 => mergeFromStackLoop stack k q2

/-- The min/max merge at the head of `MergeFrom`, on the receiver. -/
def mergeMinMax (qs other : QuantileState) : QuantileState :=
  if qs.hasMetric then
    { qs with
      min := if other.min < qs.min then other.min else qs.min,
      max := if other.max > qs.max then other.max else qs.max }
  else
    { qs with min := other.min, max := other.max }

/-- The tail of `MergeFrom` after the min/max merge: fold the sample stack
of `other` top-down into the receiver, then re-add the leaf samples of
`other`; a nil error on success, no return on panic. -/
def mergeFromTail (q1 other : QuantileState) :
    Option (QuantileState × QuantileState × Option SawError) :=
  match mergeFromStackLoop other.sampleStack other.sampleStack.length q1 with
  | none => none
  | some q2 =>
    match addAllMetrics q2 other.leaf with
    | none => none
    | some q3 => some (q3, other, none)

/-- Go `qs.MergeFrom(other)`. The result carries the receiver state, the state
of `other` (which the source never writes), and the returned Go error;
`none` models a panic inside the merge. -/
def QuantileState.MergeFrom (qs other : QuantileState) :
    Option (QuantileState × QuantileState × Option SawError) :=
  if qs.bufferSize ≠ other.bufferSize then
    some (qs, other, some SawError.errNotMergeable)
  else if other.hasMetric = false then
    some (qs, other, none)
  else
    mergeFromTail (mergeMinMax qs other) other

/-- One weighted entry of a quantile snapshot. -/
structure weightedMetric where
  metric : Metric
  weight : Nat
deriving DecidableEq, Repr

/-- Insertion step for `sortWeighted`. -/
def insertWeighted (x : weightedMetric) :
    List weightedMetric → List weightedMetric
  | [] => [x]
  | y :: ys =>
    if x.metric ≤ y.metric then x :: y :: ys else y :: insertWeighted x ys

/-- Go `sort.Sort(weightedMetricSort(buf))`: sorts entries by metric. -/
def sortWeighted (l : List weightedMetric) : List weightedMetric :=
  l.foldr insertWeighted []

/-- Snapshot type returned by `QuantileState.Result`. -/
structure Quantile where
  total : Nat
  min : Metric
  max : Metric
  queryBuf : List weightedMetric
deriving DecidableEq, Repr

/-- Go `qs.Result()`: leaf entries weigh 1, level-`l` stack entries weigh
`2^(l+2)` (ranging over a nil slice yields nothing); `total` accumulates the
weights in construction order, which equals their sum. -/
def QuantileState.Result (qs : QuantileState) : Quantile :=
  let leafEntries := qs.leaf.map (fun m => weightedMetric.mk m 1)
  let stackEntries := qs.sampleStack.enum.flatMap
    (fun p => (p.2.getD []).map (fun m => weightedMetric.mk m (2 ^ (p.1 + 2))))
  let queryBuf := leafEntries ++ stackEntries
  { total := (queryBuf.map weightedMetric.weight).sum,
    min := qs.min, max := qs.max, queryBuf := sortWeighted queryBuf }

/-- The cumulative-weight scan of `Quantile.At`; `dflt` is the fall-through
`return q.max`. -/
def atLoop (target : Rat) (dflt : Metric) :
    List weightedMetric → Rat → Metric
  | [], _ => dflt
  | wm :: rest, curr =>
    let curr2 := curr + (wm.weight : Rat)
    if target ≤ curr2 then wm.metric else atLoop target dflt rest curr2

/-- Go `q.At(ratio)`: min for `ratio ≤ 0`, max for `ratio ≥ 1`, otherwise the
first entry whose cumulative weight reaches `ratio × total`. -/
def Quantile.At (q : Quantile) (ratio : Rat) : Metric :=
  if ratio ≤ 0 then q.min
  else if 1 ≤ ratio then q.max
  else atLoop ((q.total : Rat) * ratio) q.max q.queryBuf 0

end Saw

namespace Saw

/-! ## Sliding window (window.go, the revision that increments the dropped
counter inside `prepareFrame`; the sibling revision differs only in lacking
that increment).

Frames are user saws produced by the frame factory; the model identifies a
frame with the sequence number passed to the factory call that created it,
and the `Emit` behaviour of frames is a spec parameter. -/

abbrev Frame := Int

/-- Go `WindowSpec`; `frameEmit` models the `Emit` method of the saws the
factory creates (the source calls `frame.Emit(datum)` on them). -/
structure WindowSpec where
  name : String
  frameFactory : String → Int → Except SawError Frame
  seqFunc : Datum → Int
  windowSize : Nat
  maxSeqAdvance : Int
  frameEmit : Frame → Datum → Option SawError

/-- Go `Window` state. `finalized` logs the `asyncFinalize(seq, frame)` calls
(the source fires them in goroutines and ignores the results; the log
records which frames were sent for finalization, in order). -/
structure Window where
  spec : WindowSpec
  frames : List (Option Frame)
  startSeq : Int
  latestSeq : Int
  startIdx : Nat
  hasData : Bool
  finalized : List (Int × Frame)
  droppedCount : Int

/-- Go `NewWindow(spec)`. -/
def NewWindow (spec : WindowSpec) : Window :=
  { spec := spec, frames := List.replicate spec.windowSize none,
    startSeq := 0, latestSeq := 0, startIdx := 0, hasData := false,
    finalized := [], droppedCount := 0 }

/-- Go `win.asyncFinalize(seq, frame)`: append to the finalization log. -/
def Window.asyncFinalize (win : Window) (seq : Int) (frame : Frame) : Window :=
  { win with finalized := win.finalized ++ [(seq, frame)] }

/-- Go `win.indexForOffset(offset)`. -/
def Window.indexForOffset (win : Window) (offset : Nat) : Nat :=
  (win.startIdx + offset) % win.frames.length

/-- Go `win.indexForSeq(seq)`. The source computes a Go `%` on ints; every call
site reached in the embedded runs has a non-negative left operand and a
positive window size, where Go `%` and `Int.emod` agree. -/
def Window.indexForSeq (win : Window) (seq : Int) : Nat :=
  (((win.startIdx : Int) + (seq - win.startSeq)) %
    (win.frames.length : Int)).toNat

/-- The `for i := 0; i < winSize; i++` eviction loop used by the large-jump
branch of `prepareFrame` and by `Result` (second argument counts the
remaining iterations). -/
def Window.finalizeSlots (win : Window) (i : Nat) : Nat → Window
  | 0 => win
  | n + 1 =>
    let frameIdx := win.indexForOffset i
    let win2 :=
      match win.frames.getD frameIdx none with
      | some f =>
        { win with frames := win.frames.set frameIdx none,
                   finalized := win.finalized ++ [(win.startSeq + i, f)] }
      | none => win
    Window.finalizeSlots win2 (i + 1) n

/-- One iteration of the slide loop: finalize the head slot if live, then
advance `startIdx` and `startSeq`. -/
def Window.slideOnce (win : Window) : Window :=
  let win2 :=
    match win.frames.getD win.startIdx none with
    | some f =>
      { win with finalized := win.finalized ++ [(win.startSeq, f)],
                 frames := win.frames.set win.startIdx none }
    | none => win
  { win2 with startIdx := win2.indexForOffset 1, startSeq := win2.startSeq + 1 }

/-- The `for i := 0; i < offset-winSize; i++` slide loop (argument counts
iterations, `(offset - winSize).toNat` at the call site). -/
def Window.slideLoop : Window → Nat → Window
  | win, 0 => win
  | win, n + 1 => Window.slideLoop win.slideOnce n

/-- Go `win.prepareFrame(datum)`: returns the updated window and either an
error, `some frame` to deliver to, or `none` for a dropped record. -/
def Window.prepareFrame (win : Window) (datum : Datum) :
    Window × Except SawError (Option Frame) :=
  let seq := win.spec.seqFunc datum
  if win.hasData = false then
    match win.spec.frameFactory win.spec.name seq with
    | .error e => (win, .error e)
    | .ok frame =>
      ({ win with startSeq := seq, latestSeq := seq, startIdx := 0,
                  frames := win.frames.set 0 (some frame), hasData := true },
       .ok (some frame))
  else
    let offset := seq - win.startSeq
    if offset < 0 ∨ (win.spec.maxSeqAdvance > 0 ∧ offset > win.spec.maxSeqAdvance) then
      ({ win with droppedCount := win.droppedCount + 1 }, .ok none)
    else
      let winSize := win.frames.length
      if offset < (winSize : Int) then
        let frameIdx := win.indexForOffset offset.toNat
        match win.frames.getD frameIdx none with
        | some f => (win, .ok (some f))
        | none =>
          match win.spec.frameFactory win.spec.name seq with
          | .error e => (win, .error e)
          | .ok f =>
            ({ win with frames := win.frames.set frameIdx (some f) },
             .ok (some f))
      else
        match win.spec.frameFactory win.spec.name seq with
        | .error e => (win, .error e)
        | .ok frame =>
          let win1 :=
            if win.latestSeq < seq then { win with latestSeq := seq } else win
          let win2 :=
            if (winSize : Int) * 2 ≤ offset then
              let w := win1.finalizeSlots 0 winSize
              { w with startSeq := seq - (winSize : Int) + 1, startIdx := 0 }
            else
              win1.slideLoop (offset - (winSize : Int)).toNat
          ({ win2 with
              frames := win2.frames.set (win2.indexForSeq seq) (some frame) },
           .ok (some frame))

/-- Go `win.Emit(datum)`: prepare the frame, count a drop, or deliver. -/
def Window.Emit (win : Window) (datum : Datum) : Window × Option SawError :=
  match win.prepareFrame datum with
  | (w, .error e) => (w, some e)
  | (w, .ok none) => ({ w with droppedCount := w.droppedCount + 1 }, none)
  | (w, .ok (some frame)) => (w, w.spec.frameEmit frame datum)

/-- Go `win.Result(ctx)`: schedule finalization of every live frame and reset. -/
def Window.Result (win : Window) : Window × Option SawError :=
  let w := win.finalizeSlots 0 win.frames.length
  ({ w with startSeq := 0, startIdx := 0, latestSeq := 0, hasData := false },
   none)

/-- Feed a list of sequence numbers through `Emit`, keeping the state. -/
def windowRun (spec : WindowSpec) (seqs : List Int) : Window :=
  seqs.foldl (fun w s => (w.Emit { key := "", value := s }).1) (NewWindow spec)

/-- A window spec whose factory always succeeds, returning a frame tagged
with its creation sequence, and whose frames accept every record. -/
def testWindowSpec (size : Nat) (maxAdv : Int) : WindowSpec :=
  { name := "win", frameFactory := fun _ seq => .ok seq,
    seqFunc := fun d => d.value, windowSize := size, maxSeqAdvance := maxAdv,
    frameEmit := fun _ _ => none }

end Saw

namespace Saw

/-! ## Tables (table/table.go).

Saws owned by a table are identified by `Nat` ids; the factory and the
`Emit` behaviour of created saws are spec parameters. -/

/-- Association-list lookup, modelling Go map indexing. -/
def alookup {β : Type} (k : String) : List (String × β) → Option β
  | [] => none
  | (k2, v) :: rest => if k2 = k then some v else alookup k rest

/-- Go `TableSpec` (the fields the embedded claims exercise). `sawEmit` models
the `Emit` method of the saws `itemFactory` creates. -/
structure TableSpec where
  name : String
  itemFactory : String → String → Except SawError Nat
  sawEmit : Nat → Datum → Option SawError
  keyHashFunc : String → Nat
  numShards : Nat

/-- Go `SimpleTable` state: key-to-saw map, poisoned keys, and the two
counters. -/
structure SimpleTable where
  items : List (String × Nat)
  banned : List (String × SawError)
  numKeysVar : Int
  errVar : Int
deriving DecidableEq, Repr

/-- Go `NewSimpleTable` with empty maps and zeroed counters. -/
def NewSimpleTable : SimpleTable :=
  { items := [], banned := [], numKeysVar := 0, errVar := 0 }

/-- Go `tbl.Emit(kv)`: returns the updated table, the returned error, and
whether `spec.ItemFactory` was invoked during this call. -/
def SimpleTable.Emit (spec : TableSpec) (tbl : SimpleTable) (kv : Datum) :
    SimpleTable × Option SawError × Bool :=
  match alookup kv.key tbl.items with
  | some s =>
    let e := spec.sawEmit s kv
    ({ tbl with errVar := if e.isSome then tbl.errVar + 1 else tbl.errVar },
     e, false)
  | none =>
    match alookup kv.key tbl.banned with
    | some err => (tbl, some err, false)
    | none =>
      match spec.itemFactory spec.name kv.key with
      | .error err =>
        ({ tbl with banned := (kv.key, err) :: tbl.banned }, some err, true)
      | .ok s =>
        let tbl2 :=
          { tbl with
            items := (kv.key, s) :: tbl.items,
            numKeysVar := tbl.numKeysVar + 1 }
        let e := spec.sawEmit s kv
        ({ tbl2 with
            errVar := if e.isSome then tbl2.errVar + 1 else tbl2.errVar },
         e, true)

/-- What one `Emit` call did: the record, whether the factory ran, and the
returned error. -/
structure EmitEvent where
  datum : Datum
  invoked : Bool
  err : Option SawError
deriving DecidableEq, Repr

/-- Feed a list of records through `SimpleTable.Emit`, logging one event per
call. -/
def SimpleTable.run (spec : TableSpec) :
    List Datum → SimpleTable → SimpleTable × List EmitEvent
  | [], tbl => (tbl, [])
  | kv :: rest, tbl =>
    let step := SimpleTable.Emit spec tbl kv
    let next := SimpleTable.run spec rest step.1
    (next.1,
     { datum := kv, invoked := step.2.2, err := step.2.1 } :: next.2)

/-- Number of events in which the factory ran for key `k`. -/
def invocationCount (events : List EmitEvent) (k : String) : Nat :=
  (events.filter (fun ev => ev.invoked && ev.datum.key == k)).length

/-- The error an `Emit` with key `k` must return once the factory outcome
for `k` is fixed: the cached factory error for a poisoned key, the emitted
saw error (if any) for a created saw. -/
def expectedEmitErr (spec : TableSpec) (k : String) (d : Datum) :
    Option SawError :=
  match spec.itemFactory spec.name k with
  | .error e => some e
  | .ok s => spec.sawEmit s d

/-- Key `k` has never been seen by the table: no saw and no poison entry. -/
def keyFresh (k : String) (tbl : SimpleTable) : Prop :=
  alookup k tbl.items = none ∧ alookup k tbl.banned = none

/-- Key `k` has been settled by its single factory call: either the created
saw is stored, or the factory error is cached as poison. -/
def keyResolved (spec : TableSpec) (k : String) (tbl : SimpleTable) : Prop :=
  (∃ s, spec.itemFactory spec.name k = Except.ok s ∧
    alookup k tbl.items = some s ∧ alookup k tbl.banned = none) ∨
  (∃ e, spec.itemFactory spec.name k = Except.error e ∧
    alookup k tbl.banned = some e ∧ alookup k tbl.items = none)

/-- Go `MemTable` state: the shard tables (locking is irrelevant in the
sequential embedding). -/
structure MemTable where
  shards : List SimpleTable
deriving DecidableEq, Repr

/-- Go `NewMemTable(spec)`: `numShards` fresh simple tables. -/
def NewMemTable (spec : TableSpec) : MemTable :=
  { shards := List.replicate spec.numShards NewSimpleTable }

/-- Go `tbl.Emit(kv)`: route to the hashed shard. A `none` shard lookup can
only arise with zero shards (where Go would panic on `% 0`); the embedding
returns the table unchanged there. -/
def MemTable.Emit (spec : TableSpec) (tbl : MemTable) (kv : Datum) :
    MemTable × Option SawError × Bool :=
  let shardIdx := spec.keyHashFunc kv.key % tbl.shards.length
  match tbl.shards.get? shardIdx with
  | none => (tbl, none, false)
  | some st =>
    let step := SimpleTable.Emit spec st kv
    ({ shards := tbl.shards.set shardIdx step.1 }, step.2.1, step.2.2)

/-- Feed a list of records through `MemTable.Emit`, logging events. -/
def MemTable.run (spec : TableSpec) :
    List Datum → MemTable → MemTable × List EmitEvent
  | [], tbl => (tbl, [])
  | kv :: rest, tbl =>
    let step := MemTable.Emit spec tbl kv
    let next := MemTable.run spec rest step.1
    (next.1,
     { datum := kv, invoked := step.2.2, err := step.2.1 } :: next.2)

/-- Go `tbl.Result(ctx)` of a simple table. Go map iteration order is
unspecified, so the items are taken as a list in visitation order, each key
paired with the outcome `(value, error)` of the `Result` call of its saw.
The accumulator mirrors the body: `err` is overwritten by every child
outcome, and a key is added only when its value is non-nil and its error
nil. -/
def SimpleTable.Result
    (items : List (String × Option Int × Option SawError)) :
    List (String × Int) × Option SawError :=
  items.foldl
    (fun acc item =>
      match item.2.1, item.2.2 with
      | some v, none => (acc.1 ++ [(item.1, v)], item.2.2)
      | _, _ => (acc.1, item.2.2))
    ([], none)

end Saw

namespace Saw

/-! ## Metrics registry (vars.go): expvar-backed `ReportInt` / `ReportFloat`.

The process-global expvar map is threaded explicitly; a variable is either
an `expvar.Int` or an `expvar.Float`. A failed Go type assertion
`v.(*expvar.Int)` panics, modelled as `none`. -/

/-- An expvar variable: integer or floating counter (stored value
irrelevant to the claims, kept as the running total). -/
inductive ExpVar where
  | intVar (value : Int)
  | floatVar (value : Int)
deriving DecidableEq, Repr

/-- Go `expvar.Get`. -/
def expvarGet (reg : List (String × ExpVar)) (name : String) : Option ExpVar :=
  alookup name reg

/-- Go `ReportInt(ns, name)`: fetch `ns+"."+name`, asserting it is an integer
variable, or create it. `none` models the type-assertion panic. -/
def ReportInt (reg : List (String × ExpVar)) (ns name : String) :
    Option (List (String × ExpVar) × ExpVar) :=
  let varName := ns ++ "." ++ name
  match expvarGet reg varName with
  | some v =>
    match v with
    | ExpVar.intVar _ => some (reg, v)
    | ExpVar.floatVar _ => none
  | none => some ((varName, ExpVar.intVar 0) :: reg, ExpVar.intVar 0)

/-- Go `ReportFloat(ns, name)`: the floating counterpart. -/
def ReportFloat (reg : List (String × ExpVar)) (ns name : String) :
    Option (List (String × ExpVar) × ExpVar) :=
  let varName := ns ++ "." ++ name
  match expvarGet reg varName with
  | some v =>
    match v with
    | ExpVar.floatVar _ => some (reg, v)
    | ExpVar.intVar _ => none
  | none => some ((varName, ExpVar.floatVar 0) :: reg, ExpVar.floatVar 0)

end Saw

namespace Saw

/-! ## Resource paths (storage/storage.go).

Go strings are modelled as `List Char`. `ParseResourcePath` matches the
anchored RE2 pattern with groups `([^\s]+)` `:` `([^@\s]+)` `(@\d+)?`; the
first group is greedy, so the match splits the input at the last colon whose
tail still matches. The registered-media map is passed as the list of
registered media names. -/

/-- RE2 `\s`: `[\t\n\f\r ]`. -/
def isSpaceGo (c : Char) : Bool :=
  c = ' ' || c = '\t' || c = '\n' || c = '\x0c' || c = '\r'

/-- RE2 `\d`: `[0-9]`. -/
def isDigitGo (c : Char) : Bool :=
  48 ≤ c.toNat && c.toNat ≤ 57

/-- Go `storage.ResourceSpec`. -/
structure ResourceSpec where
  Format : List Char
  Media : List Char
  Path : List Char
  NumShards : Nat
deriving DecidableEq, Repr

/-- The `local` media name. -/
def localMediaName : List Char := ['l', 'o', 'c', 'a', 'l']

/-- Go `rc.Sharded()`: `NumShards > 0`. -/
def ResourceSpec.Sharded (rc : ResourceSpec) : Bool :=
  decide (0 < rc.NumShards)

/-- Decimal digits of `n`, most significant first (`fmt` `%d` for a
non-negative int); fuel makes the division recursion structural and any
fuel above the digit count is enough. -/
def natDigitsAux : Nat → Nat → List Char
  | 0, _ => []
  | fuel + 1, n =>
    if n < 10 then [Char.ofNat (48 + n)]
    else natDigitsAux fuel (n / 10) ++ [Char.ofNat (48 + n % 10)]

/-- Decimal rendering of `n`. -/
def natDigits (n : Nat) : List Char :=
  natDigitsAux (n + 1) n

/-- Go `strconv.Atoi` on a digit string (the regex guarantees digits; `Nat` is
unbounded, so the Go overflow error cannot occur in the model). -/
def digitsToNat (ds : List Char) : Nat :=
  ds.foldl (fun acc c => acc * 10 + (c.toNat - 48)) 0

/-- Split a list at the first occurrence of `c`; `none` when `c` is absent
(Go `strings.SplitN(s, c, 2)` returning one part). -/
def splitAtFirst (c : Char) : List Char → Option (List Char × List Char)
  | [] => none
  | x :: xs =>
    if x = c then some ([], xs)
    else (splitAtFirst c xs).map (fun p => (x :: p.1, p.2))

/-- All decompositions `s = A ++ ':' :: R`, ordered by increasing `A`. -/
def colonSplits : List Char → List (List Char × List Char)
  | [] => []
  | c :: cs =>
    (if c = ':' then [(([] : List Char), cs)] else []) ++
      (colonSplits cs).map (fun p => (c :: p.1, p.2))

/-- Match `([^@\s]+)(@\d+)?$` against the part after the colon, returning
the second group and the digits of the optional third group (empty when
absent). The second group cannot cross an `@`, so the tail after the first
`@` must be one or more digits. -/
def tailMatch (r : List Char) : Option (List Char × List Char) :=
  match splitAtFirst '@' r with
  | none =>
    if !r.isEmpty && r.all (fun ch => !isSpaceGo ch) then some (r, [])
    else none
  | some (b, rest) =>
    if !b.isEmpty && b.all (fun ch => !isSpaceGo ch) &&
        !rest.isEmpty && rest.all isDigitGo
    then some (b, rest) else none

/-- The full anchored pattern: greedy first group = the longest nonempty
whitespace-free prefix before a colon whose tail matches; returns
`(format, path-part, shard-digits)`. -/
def regexMatchPath (s : List Char) : Option (List Char × List Char × List Char) :=
  ((colonSplits s).reverse.find? (fun p =>
      !p.1.isEmpty && p.1.all (fun ch => !isSpaceGo ch) &&
        (tailMatch p.2).isSome)).bind
    (fun p => (tailMatch p.2).map (fun q => (p.1, q.1, q.2)))

/-- The body of `ParseResourcePath` after the regex match: build the spec
from the three groups (media detection on an absolute path, then the shard
count). -/
def parseSpecOfGroups (mediaNames : List (List Char))
    (fmt p digits : List Char) : ResourceSpec :=
  let rc0 : ResourceSpec :=
    { Format := fmt, Media := localMediaName, Path := p, NumShards := 0 }
  let rc1 :=
    if rc0.Path.headD ' ' = '/' then
      match splitAtFirst '/' (rc0.Path.drop 1) with
      | some (seg, rest) =>
        if seg ∈ mediaNames then
          { rc0 with Media := seg, Path := '/' :: rest }
        else rc0
      | none => rc0
    else rc0
  if digits.isEmpty then rc1
  else { rc1 with NumShards := digitsToNat digits }

/-- Go `ParseResourcePath(path)`, with the registered media names passed in
place of the global `storageMediaMap`. -/
def ParseResourcePath (mediaNames : List (List Char)) (path : List Char) :
    Except SawError ResourceSpec :=
  match regexMatchPath path with
  | none => Except.error (SawError.errMsg "malformed path")
  | some (fmt, p, digits) =>
    Except.ok (parseSpecOfGroups mediaNames fmt p digits)

/-- Go `rc.String()`. Indexing `rc.Path[0]` panics on an empty path (`none`);
parser outputs always have a nonempty path. -/
def ResourceSpec.String (rc : ResourceSpec) : Option (List Char) :=
  match rc.Path with
  | [] => none
  | p0 :: _ =>
    let path :=
      if rc.Media = localMediaName ∧ p0 ≠ '/' then '.' :: '/' :: rc.Path
      else rc.Path
    if rc.Sharded then
      some (rc.Format ++ ':' :: '/' :: (rc.Media ++ path ++
        '@' :: natDigits rc.NumShards))
    else
      some (rc.Format ++ ':' :: '/' :: (rc.Media ++ path))

end Saw

namespace Saw

/-- The Go error component of a `MergeFrom` outcome (`none` both for a nil
error and for a panic, which returns no error at all). -/
def mergeErrOf (r : Option (QuantileState × QuantileState × Option SawError)) :
    Option SawError :=
  match r with
  | some (_, _, e) => e
  | none => none

end Saw

namespace Saw

/-! ## Claim C1: the collapse of two sorted length-`b` buffers. -/

/-- C1: the claim states that `QuantileState.collapse` merges two sorted
length-`b` buffers without out-of-bounds access for both values of
`collapse_flip`. The code refutes this: with `collapseFlip = 0` the final
iteration stores to `merged[b]`, one past the end of the length-`b` output
buffer (an index-out-of-range panic, `none` in the model), already for
`b = 1`, `left = [0]`, `right = [1]`; with `collapseFlip = 1` the same input
collapses fine to every second element of the merge. -/
theorem collapse_flip_zero_out_of_range :
    (NewQuantileState 1).collapse [0] [1] = none ∧
    QuantileState.collapse { NewQuantileState 1 with collapseFlip := 1 }
        [0] [1] =
      some ({ NewQuantileState 1 with collapseFlip := 0 }, [0]) := by
  decide

/-! ## Claim C8: MergeFrom with differing buffer sizes. -/

/-- The merge path of `MergeFrom` never produces the not-mergeable error:
it ends in a nil error or does not return. -/
theorem mergeFromTail_no_err (q1 other : QuantileState) :
    mergeErrOf (mergeFromTail q1 other) ≠ some SawError.errNotMergeable := by
  unfold mergeFromTail
  split
  · simp [mergeErrOf]
  · split <;> simp [mergeErrOf]

/-- C8: `MergeFrom` returns the not-mergeable error exactly when the two
buffer sizes differ, and in that case it returns with both states
untouched. -/
theorem mergeFrom_not_mergeable_iff (qs other : QuantileState) :
    (mergeErrOf (qs.MergeFrom other) = some SawError.errNotMergeable ↔
      qs.bufferSize ≠ other.bufferSize) ∧
    (qs.bufferSize ≠ other.bufferSize →
      qs.MergeFrom other = some (qs, other, some SawError.errNotMergeable)) := by
  by_cases hb : qs.bufferSize = other.bufferSize
  · have hnn : ¬ qs.bufferSize ≠ other.bufferSize := by simp [hb]
    constructor
    · constructor
      · intro h
        exfalso
        unfold QuantileState.MergeFrom at h
        rw [if_neg hnn] at h
        by_cases hm : other.hasMetric = false
        · rw [if_pos hm] at h
          simp [mergeErrOf] at h
        · rw [if_neg hm] at h
          exact mergeFromTail_no_err (mergeMinMax qs other) other h
      · intro h; exact absurd hb h
    · intro h; exact absurd hb h
  · have he : qs.MergeFrom other =
        some (qs, other, some SawError.errNotMergeable) := by
      unfold QuantileState.MergeFrom
      rw [if_pos hb]
    exact ⟨by rw [he]; simp [mergeErrOf, hb], fun _ => he⟩

/-- Witness for C8 at buffer sizes 1 and 2. -/
theorem mergeFrom_not_mergeable_iff_witness :
    mergeErrOf ((NewQuantileState 1).MergeFrom (NewQuantileState 2)) =
      some SawError.errNotMergeable ∧
    (NewQuantileState 1).MergeFrom (NewQuantileState 2) =
      some (NewQuantileState 1, NewQuantileState 2,
        some SawError.errNotMergeable) :=
  ⟨(mergeFrom_not_mergeable_iff (NewQuantileState 1)
      (NewQuantileState 2)).1.mpr (by decide),
   (mergeFrom_not_mergeable_iff (NewQuantileState 1)
      (NewQuantileState 2)).2 (by decide)⟩

end Saw

namespace Saw

/-! ## Claim C9: At at the extremes equals observed min and max. -/

/-- Go `collapse` only updates `collapseFlip` on the receiver. -/
theorem collapse_preserves (qs : QuantileState) (left right : List Metric)
    (q2 : QuantileState) (buf : List Metric)
    (h : qs.collapse left right = some (q2, buf)) :
    q2.min = qs.min ∧ q2.max = qs.max ∧ q2.hasMetric = qs.hasMetric ∧
      q2.bufferSize = qs.bufferSize ∧ q2.leaf = qs.leaf := by
  unfold QuantileState.collapse at h
  cases hc : collapseCore qs.bufferSize qs.collapseFlip left right with
  | none => rw [hc] at h; simp at h
  | some p =>
    obtain ⟨flip2, merged⟩ := p
    rw [hc] at h
    simp only [Option.map_some', Option.some.injEq, Prod.mk.injEq] at h
    rw [← h.1]
    exact ⟨rfl, rfl, rfl, rfl, rfl⟩

/-- Go `mergeSampleStack` only updates `collapseFlip` and `sampleStack` on the
receiver. -/
theorem mergeSampleStack_preserves (qs : QuantileState) (lvl : Nat)
    (buf : Option (List Metric)) (q2 : QuantileState)
    (h : qs.mergeSampleStack lvl buf = some q2) :
    q2.min = qs.min ∧ q2.max = qs.max ∧ q2.hasMetric = qs.hasMetric ∧
      q2.bufferSize = qs.bufferSize ∧ q2.leaf = qs.leaf := by
  unfold QuantileState.mergeSampleStack at h
  cases hc : mergeStackCore qs.bufferSize qs.collapseFlip qs.sampleStack
      lvl buf with
  | none => rw [hc] at h; simp at h
  | some p =>
    rw [hc] at h
    simp only [Option.map_some', Option.some.injEq] at h
    rw [← h]
    exact ⟨rfl, rfl, rfl, rfl, rfl⟩

/-- On success, `AddMetric` sets `hasMetric` and updates min and max from
the previous extrema and the new metric, preserving `bufferSize`. -/
theorem addMetric_spec (qs : QuantileState) (m : Metric) (q2 : QuantileState)
    (h : qs.AddMetric m = some q2) :
    q2.hasMetric = true ∧
    q2.min = (if qs.hasMetric then (if m < qs.min then m else qs.min) else m) ∧
    q2.max = (if qs.hasMetric then (if qs.max < m then m else qs.max) else m) ∧
    q2.bufferSize = qs.bufferSize := by
  unfold QuantileState.AddMetric at h
  simp only at h
  split at h
  · exact absurd h (by simp)
  · rename_i q3 heq
    have hf : q3.min = qs.min ∧ q3.max = qs.max ∧
        q3.hasMetric = qs.hasMetric ∧ q3.bufferSize = qs.bufferSize := by
      split at heq
      · split at heq
        · exact absurd heq (by simp)
        · rename_i q2c leafCollapsed hcol
          have hc := collapse_preserves _ _ _ _ _ hcol
          have hp := mergeSampleStack_preserves _ _ _ _ heq
          refine ⟨?_, ?_, ?_, ?_⟩
          · rw [hp.1]; exact hc.1
          · rw [hp.2.1]; exact hc.2.1
          · rw [hp.2.2.1]; exact hc.2.2.1
          · rw [hp.2.2.2.1]; exact hc.2.2.2.1
      · injection heq with h3
        rw [← h3]
        exact ⟨rfl, rfl, rfl, rfl⟩
    injection h with h2
    rw [← h2]
    refine ⟨rfl, ?_, ?_, hf.2.2.2⟩
    · show (if q3.hasMetric then (if m < q3.min then m else q3.min) else m) = _
      rw [hf.1, hf.2.2.1]
    · show (if q3.hasMetric then (if q3.max < m then m else q3.max) else m) = _
      rw [hf.2.1, hf.2.2.1]

/-- The min update of `AddMetric` is `min` of old and new. -/
theorem if_lt_min (a x : Int) : (if x < a then x else a) = min a x := by
  by_cases h : x < a
  · rw [if_pos h, min_eq_right h.le]
  · rw [if_neg h, min_eq_left (not_lt.mp h)]

/-- The max update of `AddMetric` is `max` of old and new. -/
theorem if_lt_max (a x : Int) : (if a < x then x else a) = max a x := by
  by_cases h : a < x
  · rw [if_pos h, max_eq_right h.le]
  · rw [if_neg h, max_eq_left (not_lt.mp h)]

/-- Feeding metrics into a state that has already observed one keeps
`hasMetric` and folds min and max over the fed metrics. -/
theorem addAll_minmax (xs : List Metric) : ∀ (q0 q : QuantileState),
    addAllMetrics q0 xs = some q → q0.hasMetric = true →
    q.hasMetric = true ∧ q.min = xs.foldl min q0.min ∧
      q.max = xs.foldl max q0.max := by
  induction xs with
  | nil =>
    intro q0 q h h0
    simp only [addAllMetrics, List.foldlM_nil, Option.pure_def,
      Option.some.injEq] at h
    rw [← h]
    exact ⟨h0, rfl, rfl⟩
  | cons x rest ih =>
    intro q0 q h h0
    rw [addAllMetrics, List.foldlM_cons] at h
    cases hstep : q0.AddMetric x with
    | none => rw [hstep] at h; simp at h
    | some q1 =>
      rw [hstep] at h
      simp only [Option.bind_eq_bind, Option.some_bind] at h
      have hs := addMetric_spec q0 x q1 hstep
      have h1min : q1.min = min q0.min x := by
        rw [hs.2.1, if_pos h0, if_lt_min]
      have h1max : q1.max = max q0.max x := by
        rw [hs.2.2.1, if_pos h0, if_lt_max]
      have := ih q1 q h hs.1
      refine ⟨this.1, ?_, ?_⟩
      · rw [this.2.1, List.foldl_cons, h1min]
      · rw [this.2.2, List.foldl_cons, h1max]

/-- The first `AddMetric` on a fresh sketch only installs the metric in the
leaf and as both extrema (a fresh leaf has one element, never `2b`). -/
theorem addMetric_fresh (b : Nat) (x : Metric) :
    (NewQuantileState b).AddMetric x =
      some { bufferSize := b, leaf := [x], sampleStack := [], min := x,
             max := x, hasMetric := true, collapseFlip := 0 } := by
  unfold QuantileState.AddMetric NewQuantileState
  simp only [List.nil_append, List.length_singleton]
  rw [if_neg (by omega : ¬ (1 = b * 2))]
  rfl

/-- C9: for a sketch built from at least one added value, the snapshot
returns the observed minimum at every ratio at most 0 and the observed
maximum at every ratio at least 1. -/
theorem quantile_at_extremes (b : Nat) (x : Metric) (xs : List Metric)
    (r0 r1 : Rat) (q : QuantileState)
    (h : addAllMetrics (NewQuantileState b) (x :: xs) = some q)
    (h0 : r0 ≤ 0) (h1 : 1 ≤ r1) :
    (q.Result).At r0 = xs.foldl min x ∧ (q.Result).At r1 = xs.foldl max x := by
  rw [addAllMetrics, List.foldlM_cons, addMetric_fresh] at h
  simp only [Option.bind_eq_bind, Option.some_bind] at h
  have hmm := addAll_minmax xs _ q h rfl
  have hResMin : (q.Result).min = q.min := rfl
  have hResMax : (q.Result).max = q.max := rfl
  constructor
  · simp only [Quantile.At, if_pos h0]
    rw [hResMin, hmm.2.1]
  · have hn0 : ¬ r1 ≤ 0 := by
      intro hc
      exact absurd (le_trans h1 hc) (by norm_num)
    simp only [Quantile.At, if_neg hn0, if_pos h1]
    rw [hResMax, hmm.2.2]

/-- Witness for C9: the sketch fed 3 then 1 with buffer size 2. -/
theorem quantile_at_extremes_witness :
    ((QuantileState.mk 2 [3, 1] [] 1 3 true 0).Result).At 0 = 1 ∧
    ((QuantileState.mk 2 [3, 1] [] 1 3 true 0).Result).At 1 = 3 := by
  have h := quantile_at_extremes 2 3 [1] 0 1
    (QuantileState.mk 2 [3, 1] [] 1 3 true 0) (by decide)
    (le_refl 0) (le_refl 1)
  exact ⟨h.1.trans (by decide), h.2.trans (by decide)⟩

end Saw

namespace Saw

/-! ## Claims C2 and C3: the window slide.

With window size 2, feeding sequences 0, 1, 2 reaches the slide branch with
offset = 2: the loop bound `offset - winSize` runs zero slide steps (the
claim requires one), and the new frame is installed at the head slot,
overwriting the live frame for sequence 0 without any finalization. -/

/-- C2: after feeding 0, 1, 2 into a size-2 window nothing was sent for
finalization, the head did not advance (zero slide steps instead of one),
and the head slot holds the frame created for sequence 2 in place of the
live frame created for sequence 0. -/
theorem window_slide_overwrites_live_frame :
    (windowRun (testWindowSpec 2 0) [0, 1, 2]).finalized = [] ∧
    (windowRun (testWindowSpec 2 0) [0, 1, 2]).frames = [some 2, some 1] ∧
    (windowRun (testWindowSpec 2 0) [0, 1, 2]).startSeq = 0 ∧
    (windowRun (testWindowSpec 2 0) [0, 1, 2]).startIdx = 0 := by
  decide

/-- C3: the same reachable state violates the live-frame invariant: slot 0
is live with a frame created for sequence 2, while
`startSeq + windowSize - 1 = 1 < 2`. -/
theorem window_live_frame_outside_bounds :
    (windowRun (testWindowSpec 2 0) [0, 1, 2]).frames.getD 0 none = some 2 ∧
    ¬ ((2 : Int) ≤ (windowRun (testWindowSpec 2 0) [0, 1, 2]).startSeq +
        ((windowRun (testWindowSpec 2 0) [0, 1, 2]).frames.length : Int) - 1) := by
  decide

/-! ## Claim C4: dropped records. -/

/-- C4: in the revision that increments the dropped counter inside
`prepareFrame`, an out-of-window record (offset −1 on a non-empty window)
is counted twice by `Emit` — once in `prepareFrame` and once in `Emit` —
while delivering to no frame and returning a nil error; the claim requires
exactly one increment. -/
theorem window_drop_double_counts :
    (((NewWindow (testWindowSpec 2 0)).Emit ⟨"", 0⟩).1.Emit
        ⟨"", -1⟩).1.droppedCount = 2 ∧
    (((NewWindow (testWindowSpec 2 0)).Emit ⟨"", 0⟩).1.Emit ⟨"", -1⟩).2 =
      none ∧
    (((NewWindow (testWindowSpec 2 0)).Emit ⟨"", 0⟩).1.Emit ⟨"", -1⟩).1.frames =
      ((NewWindow (testWindowSpec 2 0)).Emit ⟨"", 0⟩).1.frames := by
  decide

/-! ## Claim C6: the retained error of SimpleTable.Result. -/

/-- C6: `err` is overwritten on every iteration, so when a child whose
`Result` fails is visited before a child that succeeds, the failure is
forgotten: the map keeps exactly the successful non-nil results but the
returned error is nil, refuting the claim that one child error is returned
regardless of visitation order. -/
theorem simpleTable_result_error_lost :
    SimpleTable.Result
        [("bad", none, some (SawError.errMsg "boom")), ("good", some 7, none)] =
      ([("good", 7)], none) ∧
    SimpleTable.Result
        [("good", some 7, none), ("bad", none, some (SawError.errMsg "boom"))] =
      ([("good", 7)], some (SawError.errMsg "boom")) := by
  decide

/-! ## Claim C10: re-registering a metric name under the other kind. -/

/-- C10: a name first registered as a float variable makes a later
`ReportInt` with the same namespace and name hit the failed type assertion
`v.(*expvar.Int)` — a panic, neither a variable nor an error. -/
theorem reportInt_after_reportFloat_panics (ns name : String)
    (reg reg2 : List (String × ExpVar)) (v : ExpVar)
    (h0 : expvarGet reg (ns ++ "." ++ name) = none)
    (h : ReportFloat reg ns name = some (reg2, v)) :
    ReportInt reg2 ns name = none := by
  unfold ReportFloat at h
  simp only [h0] at h
  simp only [Option.some.injEq, Prod.mk.injEq] at h
  unfold ReportInt expvarGet
  rw [← h.1]
  simp [alookup]

/-- Witness for C10 on the fresh registry and the name `ns.n`. -/
theorem reportInt_after_reportFloat_panics_witness :
    ReportInt [("ns.n", ExpVar.floatVar 0)] "ns" "n" = none :=
  reportInt_after_reportFloat_panics "ns" "n" []
    [("ns.n", ExpVar.floatVar 0)] (ExpVar.floatVar 0) (by decide) (by decide)

end Saw

namespace Saw

/-! ## Claim C7: the item factory runs at most once per key. -/

/-- Counting an event prepended to a log. -/
theorem invocationCount_cons (ev : EmitEvent) (evs : List EmitEvent)
    (k : String) :
    invocationCount (ev :: evs) k =
      (if ev.invoked && ev.datum.key == k then 1 else 0) +
        invocationCount evs k := by
  simp only [invocationCount, List.filter_cons]
  split
  · rw [List.length_cons]
    omega
  · omega

/-- Unfolding `SimpleTable.run` on the empty batch. -/
theorem simpleRun_nil (spec : TableSpec) (tbl : SimpleTable) :
    SimpleTable.run spec [] tbl = (tbl, []) := rfl

/-- Unfolding `SimpleTable.run` on one record. -/
theorem simpleRun_cons (spec : TableSpec) (d : Datum) (rest : List Datum)
    (tbl : SimpleTable) :
    SimpleTable.run spec (d :: rest) tbl =
      ((SimpleTable.run spec rest (SimpleTable.Emit spec tbl d).1).1,
       { datum := d, invoked := (SimpleTable.Emit spec tbl d).2.2,
         err := (SimpleTable.Emit spec tbl d).2.1 } ::
         (SimpleTable.run spec rest (SimpleTable.Emit spec tbl d).1).2) := rfl

/-- An `Emit` for a different key leaves the entries of `k` alone. -/
theorem emit_preserves_other_key (spec : TableSpec) (tbl : SimpleTable)
    (d : Datum) (k : String) (hne : d.key ≠ k) :
    alookup k (SimpleTable.Emit spec tbl d).1.items = alookup k tbl.items ∧
    alookup k (SimpleTable.Emit spec tbl d).1.banned = alookup k tbl.banned := by
  rcases hi : alookup d.key tbl.items with _ | s
  · rcases hb : alookup d.key tbl.banned with _ | e
    · rcases hf : spec.itemFactory spec.name d.key with e | s
      · simp [SimpleTable.Emit, hi, hb, hf, alookup, hne]
      · simp [SimpleTable.Emit, hi, hb, hf, alookup, hne]
    · simp [SimpleTable.Emit, hi, hb]
  · simp [SimpleTable.Emit, hi]

/-- An `Emit` for key `k` on a table that already resolved `k` does not
invoke the factory, returns the expected error, and keeps `k` resolved. -/
theorem emit_resolved (spec : TableSpec) (tbl : SimpleTable) (d : Datum)
    (k : String) (hk : d.key = k) (hr : keyResolved spec k tbl) :
    keyResolved spec k (SimpleTable.Emit spec tbl d).1 ∧
    (SimpleTable.Emit spec tbl d).2.2 = false ∧
    (SimpleTable.Emit spec tbl d).2.1 = expectedEmitErr spec k d := by
  subst hk
  rcases hr with ⟨s, hf, hi, hb⟩ | ⟨e, hf, hb, hi⟩
  · have hstep : SimpleTable.Emit spec tbl d =
        ({ tbl with errVar := if (spec.sawEmit s d).isSome then tbl.errVar + 1
                    else tbl.errVar }, spec.sawEmit s d, false) := by
      simp only [SimpleTable.Emit, hi]
    rw [hstep]
    refine ⟨Or.inl ⟨s, hf, hi, hb⟩, rfl, ?_⟩
    unfold expectedEmitErr
    rw [hf]
  · have hstep : SimpleTable.Emit spec tbl d = (tbl, some e, false) := by
      simp only [SimpleTable.Emit, hi, hb]
    rw [hstep]
    refine ⟨Or.inr ⟨e, hf, hb, hi⟩, rfl, ?_⟩
    unfold expectedEmitErr
    rw [hf]

/-- An `Emit` for key `k` on a table fresh for `k` invokes the factory,
returns the expected error, and resolves `k`. -/
theorem emit_fresh (spec : TableSpec) (tbl : SimpleTable) (d : Datum)
    (k : String) (hk : d.key = k) (hfr : keyFresh k tbl) :
    keyResolved spec k (SimpleTable.Emit spec tbl d).1 ∧
    (SimpleTable.Emit spec tbl d).2.2 = true ∧
    (SimpleTable.Emit spec tbl d).2.1 = expectedEmitErr spec k d := by
  subst hk
  obtain ⟨hi, hb⟩ := hfr
  rcases hf : spec.itemFactory spec.name d.key with e | s
  · have hstep : SimpleTable.Emit spec tbl d =
        ({ tbl with banned := (d.key, e) :: tbl.banned }, some e, true) := by
      simp only [SimpleTable.Emit, hi, hb, hf]
    rw [hstep]
    refine ⟨Or.inr ⟨e, hf, ?_, hi⟩, rfl, ?_⟩
    · simp [alookup]
    · unfold expectedEmitErr
      rw [hf]
  · have hstep : SimpleTable.Emit spec tbl d =
        ({ tbl with
             items := (d.key, s) :: tbl.items,
             numKeysVar := tbl.numKeysVar + 1,
             errVar := if (spec.sawEmit s d).isSome then tbl.errVar + 1
                       else tbl.errVar },
         spec.sawEmit s d, true) := by
      simp only [SimpleTable.Emit, hi, hb, hf]
    rw [hstep]
    refine ⟨Or.inl ⟨s, hf, ?_, hb⟩, rfl, ?_⟩
    · simp [alookup]
    · unfold expectedEmitErr
      rw [hf]

/-- The predicate `keyResolved` only depends on the two lookups for `k`. -/
theorem keyResolved_congr (spec : TableSpec) (k : String)
    (t1 t2 : SimpleTable)
    (hi : alookup k t2.items = alookup k t1.items)
    (hb : alookup k t2.banned = alookup k t1.banned)
    (h : keyResolved spec k t1) : keyResolved spec k t2 := by
  rcases h with ⟨s, hf, h1, h2⟩ | ⟨e, hf, h1, h2⟩
  · exact Or.inl ⟨s, hf, hi.trans h1, hb.trans h2⟩
  · exact Or.inr ⟨e, hf, hb.trans h1, hi.trans h2⟩

/-- The predicate `keyFresh` only depends on the two lookups for `k`. -/
theorem keyFresh_congr (k : String) (t1 t2 : SimpleTable)
    (hi : alookup k t2.items = alookup k t1.items)
    (hb : alookup k t2.banned = alookup k t1.banned)
    (h : keyFresh k t1) : keyFresh k t2 :=
  ⟨hi.trans h.1, hb.trans h.2⟩

end Saw

namespace Saw

/-- An event for another key never counts towards `k`. -/
theorem invocationCount_cons_other (ev : EmitEvent) (evs : List EmitEvent)
    (k : String) (h : ev.datum.key ≠ k) :
    invocationCount (ev :: evs) k = invocationCount evs k := by
  simp [invocationCount, List.filter_cons, h]

/-- Once `k` is resolved, a run invokes the factory for `k` zero more
times, every emit for `k` returns the expected error, and `k` stays
resolved. -/
theorem run_resolved (spec : TableSpec) (k : String) :
    ∀ (ds : List Datum) (tbl : SimpleTable), keyResolved spec k tbl →
    invocationCount (SimpleTable.run spec ds tbl).2 k = 0 ∧
    (∀ ev ∈ (SimpleTable.run spec ds tbl).2, ev.datum.key = k →
      ev.err = expectedEmitErr spec k ev.datum) ∧
    keyResolved spec k (SimpleTable.run spec ds tbl).1 := by
  intro ds
  induction ds with
  | nil =>
    intro tbl hr
    refine ⟨rfl, ?_, hr⟩
    intro ev hev
    simp [simpleRun_nil] at hev
  | cons d rest ih =>
    intro tbl hr
    rw [simpleRun_cons]
    by_cases hk : d.key = k
    · have h2 := emit_resolved spec tbl d k hk hr
      have ihr := ih (SimpleTable.Emit spec tbl d).1 h2.1
      refine ⟨?_, ?_, ihr.2.2⟩
      · rw [invocationCount_cons]
        simp [h2.2.1, ihr.1]
      · intro ev hev hkey
        simp only [List.mem_cons] at hev
        rcases hev with rfl | hev
        · exact h2.2.2
        · exact ihr.2.1 ev hev hkey
    · have h1 := emit_preserves_other_key spec tbl d k hk
      have hr2 : keyResolved spec k (SimpleTable.Emit spec tbl d).1 :=
        keyResolved_congr spec k tbl _ h1.1 h1.2 hr
      have ihr := ih (SimpleTable.Emit spec tbl d).1 hr2
      refine ⟨?_, ?_, ihr.2.2⟩
      · rw [invocationCount_cons]
        simp [hk, ihr.1]
      · intro ev hev hkey
        simp only [List.mem_cons] at hev
        rcases hev with rfl | hev
        · exact absurd hkey hk
        · exact ihr.2.1 ev hev hkey

/-- From a table fresh for `k`, a run invokes the factory for `k` at most
once and every emit for `k` returns the expected error. -/
theorem run_fresh (spec : TableSpec) (k : String) :
    ∀ (ds : List Datum) (tbl : SimpleTable), keyFresh k tbl →
    invocationCount (SimpleTable.run spec ds tbl).2 k ≤ 1 ∧
    (∀ ev ∈ (SimpleTable.run spec ds tbl).2, ev.datum.key = k →
      ev.err = expectedEmitErr spec k ev.datum) := by
  intro ds
  induction ds with
  | nil =>
    intro tbl _
    refine ⟨by simp [simpleRun_nil, invocationCount], ?_⟩
    intro ev hev
    simp [simpleRun_nil] at hev
  | cons d rest ih =>
    intro tbl hfr
    rw [simpleRun_cons]
    by_cases hk : d.key = k
    · have h3 := emit_fresh spec tbl d k hk hfr
      have hres := run_resolved spec k rest (SimpleTable.Emit spec tbl d).1 h3.1
      refine ⟨?_, ?_⟩
      · rw [invocationCount_cons, hres.1]
        split <;> omega
      · intro ev hev hkey
        simp only [List.mem_cons] at hev
        rcases hev with rfl | hev
        · exact h3.2.2
        · exact hres.2.1 ev hev hkey
    · have h1 := emit_preserves_other_key spec tbl d k hk
      have hfr2 : keyFresh k (SimpleTable.Emit spec tbl d).1 :=
        keyFresh_congr k tbl _ h1.1 h1.2 hfr
      have ihr := ih (SimpleTable.Emit spec tbl d).1 hfr2
      refine ⟨?_, ?_⟩
      · rw [invocationCount_cons_other _ _ _ hk]
        exact ihr.1
      · intro ev hev hkey
        simp only [List.mem_cons] at hev
        rcases hev with rfl | hev
        · exact absurd hkey hk
        · exact ihr.2 ev hev hkey

end Saw

namespace Saw

/-- Reading back the slot just written. -/
theorem get?_set_same {α : Type} (l : List α) (i : Nat) (a : α)
    (h : i < l.length) : (l.set i a).get? i = some a := by
  rw [List.get?_eq_getElem?]
  exact List.getElem?_set_eq_of_lt a h

/-- Writing one slot leaves the others unchanged. -/
theorem get?_set_other {α : Type} (l : List α) (i j : Nat) (a : α)
    (h : i ≠ j) : (l.set i a).get? j = l.get? j := by
  rw [List.get?_eq_getElem?, List.get?_eq_getElem?]
  exact List.getElem?_set_ne h

/-- A successful lookup is in range. -/
theorem get?_some_lt {α : Type} (l : List α) (i : Nat) (b : α)
    (h : l.get? i = some b) : i < l.length := by
  by_contra hc
  rw [List.get?_eq_none.mpr (by omega)] at h
  exact absurd h (by simp)

/-- Unfolding `MemTable.run` on the empty batch. -/
theorem memRun_nil (spec : TableSpec) (tbl : MemTable) :
    MemTable.run spec [] tbl = (tbl, []) := rfl

/-- Unfolding `MemTable.run` on one record. -/
theorem memRun_cons (spec : TableSpec) (d : Datum) (rest : List Datum)
    (tbl : MemTable) :
    MemTable.run spec (d :: rest) tbl =
      ((MemTable.run spec rest (MemTable.Emit spec tbl d).1).1,
       { datum := d, invoked := (MemTable.Emit spec tbl d).2.2,
         err := (MemTable.Emit spec tbl d).2.1 } ::
         (MemTable.run spec rest (MemTable.Emit spec tbl d).1).2) := rfl

/-- Go `MemTable.Emit` when the hashed shard is missing (zero shards). -/
theorem memEmit_none (spec : TableSpec) (tbl : MemTable) (d : Datum)
    (h : tbl.shards.get? (spec.keyHashFunc d.key % tbl.shards.length) = none) :
    MemTable.Emit spec tbl d = (tbl, none, false) := by
  simp only [MemTable.Emit, h]

/-- Go `MemTable.Emit` delegates to the hashed shard. -/
theorem memEmit_some (spec : TableSpec) (tbl : MemTable) (d : Datum)
    (st : SimpleTable)
    (h : tbl.shards.get? (spec.keyHashFunc d.key % tbl.shards.length) =
      some st) :
    MemTable.Emit spec tbl d =
      ({ shards := tbl.shards.set
          (spec.keyHashFunc d.key % tbl.shards.length)
          (SimpleTable.Emit spec st d).1 },
       (SimpleTable.Emit spec st d).2.1,
       (SimpleTable.Emit spec st d).2.2) := by
  simp only [MemTable.Emit, h]

/-- A shardless table never invokes any factory. -/
theorem memRun_no_shards (spec : TableSpec) (k : String) :
    ∀ (ds : List Datum) (tbl : MemTable), tbl.shards = [] →
    invocationCount (MemTable.run spec ds tbl).2 k = 0 := by
  intro ds
  induction ds with
  | nil => intro tbl _; simp [memRun_nil, invocationCount]
  | cons d rest ih =>
    intro tbl hsh
    have hget : tbl.shards.get?
        (spec.keyHashFunc d.key % tbl.shards.length) = none := by
      rw [hsh]; rfl
    rw [memRun_cons, memEmit_none spec tbl d hget, invocationCount_cons]
    have h0 := ih tbl hsh
    simp [h0]

/-- Once the shard owning `k` has `k` resolved, a sharded run never invokes
the factory for `k` again, and the shard keeps `k` resolved. -/
theorem memRun_resolved (spec : TableSpec) (k : String) :
    ∀ (ds : List Datum) (tbl : MemTable) (st : SimpleTable),
    tbl.shards.get? (spec.keyHashFunc k % tbl.shards.length) = some st →
    keyResolved spec k st →
    invocationCount (MemTable.run spec ds tbl).2 k = 0 := by
  intro ds
  induction ds with
  | nil => intro tbl st _ _; simp [memRun_nil, invocationCount]
  | cons d rest ih =>
    intro tbl st hget hres
    rw [memRun_cons]
    by_cases hk : d.key = k
    · subst hk
      rw [memEmit_some spec tbl d st hget, invocationCount_cons]
      have h2 := emit_resolved spec st d d.key rfl hres
      have hlt := get?_some_lt _ _ _ hget
      have hlen2 : (tbl.shards.set
          (spec.keyHashFunc d.key % tbl.shards.length)
          (SimpleTable.Emit spec st d).1).length = tbl.shards.length := by
        simp [List.length_set]
      have hget2 : (tbl.shards.set
          (spec.keyHashFunc d.key % tbl.shards.length)
          (SimpleTable.Emit spec st d).1).get?
            (spec.keyHashFunc d.key %
              (tbl.shards.set (spec.keyHashFunc d.key % tbl.shards.length)
                (SimpleTable.Emit spec st d).1).length) =
          some (SimpleTable.Emit spec st d).1 := by
        rw [hlen2]
        exact get?_set_same _ _ _ hlt
      have htail := ih _ _ hget2 h2.1
      simp [h2.2.1, htail]
    · rcases hg2 : tbl.shards.get?
          (spec.keyHashFunc d.key % tbl.shards.length) with _ | st2
      · rw [memEmit_none spec tbl d hg2,
          invocationCount_cons_other _ _ _ hk]
        exact ih tbl st hget hres
      · rw [memEmit_some spec tbl d st2 hg2,
          invocationCount_cons_other _ _ _ hk]
        have hlt2 := get?_some_lt _ _ _ hg2
        have hlen2 : (tbl.shards.set
            (spec.keyHashFunc d.key % tbl.shards.length)
            (SimpleTable.Emit spec st2 d).1).length = tbl.shards.length := by
          simp [List.length_set]
        by_cases hsh : spec.keyHashFunc d.key % tbl.shards.length =
            spec.keyHashFunc k % tbl.shards.length
        · have hst : st2 = st := by
            rw [hsh] at hg2
            rw [hg2] at hget
            exact Option.some.inj hget
          subst hst
          have h1 := emit_preserves_other_key spec st2 d k hk
          have hres2 : keyResolved spec k (SimpleTable.Emit spec st2 d).1 :=
            keyResolved_congr spec k st2 _ h1.1 h1.2 hres
          refine ih _ (SimpleTable.Emit spec st2 d).1 ?_ hres2
          rw [hlen2, ← hsh]
          exact get?_set_same _ _ _ hlt2
        · refine ih _ st ?_ hres
          rw [hlen2]
          rw [get?_set_other _ _ _ _ hsh]
          exact hget

/-- From a table whose shard for `k` is fresh for `k`, a sharded run
invokes the factory for `k` at most once. -/
theorem memRun_fresh (spec : TableSpec) (k : String) :
    ∀ (ds : List Datum) (tbl : MemTable) (st : SimpleTable),
    tbl.shards.get? (spec.keyHashFunc k % tbl.shards.length) = some st →
    keyFresh k st →
    invocationCount (MemTable.run spec ds tbl).2 k ≤ 1 := by
  intro ds
  induction ds with
  | nil => intro tbl st _ _; simp [memRun_nil, invocationCount]
  | cons d rest ih =>
    intro tbl st hget hfr
    rw [memRun_cons]
    by_cases hk : d.key = k
    · subst hk
      rw [memEmit_some spec tbl d st hget, invocationCount_cons]
      have h3 := emit_fresh spec st d d.key rfl hfr
      have hlt := get?_some_lt _ _ _ hget
      have hlen2 : (tbl.shards.set
          (spec.keyHashFunc d.key % tbl.shards.length)
          (SimpleTable.Emit spec st d).1).length = tbl.shards.length := by
        simp [List.length_set]
      have hget2 : (tbl.shards.set
          (spec.keyHashFunc d.key % tbl.shards.length)
          (SimpleTable.Emit spec st d).1).get?
            (spec.keyHashFunc d.key %
              (tbl.shards.set (spec.keyHashFunc d.key % tbl.shards.length)
                (SimpleTable.Emit spec st d).1).length) =
          some (SimpleTable.Emit spec st d).1 := by
        rw [hlen2]
        exact get?_set_same _ _ _ hlt
      have htail := memRun_resolved spec d.key rest _ _ hget2 h3.1
      rw [htail]
      split <;> omega
    · rcases hg2 : tbl.shards.get?
          (spec.keyHashFunc d.key % tbl.shards.length) with _ | st2
      · rw [memEmit_none spec tbl d hg2,
          invocationCount_cons_other _ _ _ hk]
        exact ih tbl st hget hfr
      · rw [memEmit_some spec tbl d st2 hg2,
          invocationCount_cons_other _ _ _ hk]
        have hlt2 := get?_some_lt _ _ _ hg2
        have hlen2 : (tbl.shards.set
            (spec.keyHashFunc d.key % tbl.shards.length)
            (SimpleTable.Emit spec st2 d).1).length = tbl.shards.length := by
          simp [List.length_set]
        by_cases hsh : spec.keyHashFunc d.key % tbl.shards.length =
            spec.keyHashFunc k % tbl.shards.length
        · have hst : st2 = st := by
            rw [hsh] at hg2
            rw [hg2] at hget
            exact Option.some.inj hget
          subst hst
          have h1 := emit_preserves_other_key spec st2 d k hk
          have hfr2 : keyFresh k (SimpleTable.Emit spec st2 d).1 :=
            keyFresh_congr k st2 _ h1.1 h1.2 hfr
          refine ih _ (SimpleTable.Emit spec st2 d).1 ?_ hfr2
          rw [hlen2, ← hsh]
          exact get?_set_same _ _ _ hlt2
        · refine ih _ st ?_ hfr
          rw [hlen2]
          rw [get?_set_other _ _ _ _ hsh]
          exact hget

end Saw

namespace Saw

/-- C7: over any batch, a simple table invokes the item factory for a key
at most once; every emit for a poisoned key returns the cached factory
error and every emit for a created key returns what the stored saw returns
(`expectedEmitErr` folds both cases over the fixed factory outcome); and a
sharded memory table, which routes each key to the fixed hashed shard, also
invokes the factory for a key at most once over its lifetime. -/
theorem table_factory_at_most_once (spec : TableSpec) (ds : List Datum)
    (k : String) :
    invocationCount (SimpleTable.run spec ds NewSimpleTable).2 k ≤ 1 ∧
    (∀ ev ∈ (SimpleTable.run spec ds NewSimpleTable).2, ev.datum.key = k →
      ev.err = expectedEmitErr spec k ev.datum) ∧
    invocationCount (MemTable.run spec ds (NewMemTable spec)).2 k ≤ 1 := by
  have hfresh : keyFresh k NewSimpleTable := ⟨rfl, rfl⟩
  have hs := run_fresh spec k ds NewSimpleTable hfresh
  refine ⟨hs.1, hs.2, ?_⟩
  cases hN : spec.numShards with
  | zero =>
    have h0 : (NewMemTable spec).shards = [] := by
      simp [NewMemTable, hN]
    rw [memRun_no_shards spec k ds (NewMemTable spec) h0]
    omega
  | succ n =>
    have hlen : (NewMemTable spec).shards.length = n + 1 := by
      simp [NewMemTable, hN]
    have hget : (NewMemTable spec).shards.get?
        (spec.keyHashFunc k % (NewMemTable spec).shards.length) =
        some NewSimpleTable := by
      rw [hlen]
      have hlt : spec.keyHashFunc k % (n + 1) < n + 1 :=
        Nat.mod_lt _ (Nat.succ_pos n)
      show (NewMemTable spec).shards.get? (spec.keyHashFunc k % (n + 1)) = _
      rw [List.get?_eq_getElem?]
      simp [NewMemTable, hN, List.getElem?_replicate, hlt]
    exact memRun_fresh spec k ds (NewMemTable spec) NewSimpleTable hget hfresh

/-- Witness for C7: a factory that poisons keys with prefix `bad`, a batch
that repeats keys, and both table flavours. -/
theorem table_factory_at_most_once_witness :
    invocationCount
      (SimpleTable.run
        { name := "t",
          itemFactory := fun _ key =>
            if key = "bad" then Except.error (SawError.errMsg "boom")
            else Except.ok 1,
          sawEmit := fun _ _ => none,
          keyHashFunc := String.length, numShards := 2 }
        [⟨"bad", 1⟩, ⟨"bad", 2⟩, ⟨"ok", 3⟩, ⟨"bad", 4⟩]
        NewSimpleTable).2 "bad" ≤ 1 ∧
    invocationCount
      (MemTable.run
        { name := "t",
          itemFactory := fun _ key =>
            if key = "bad" then Except.error (SawError.errMsg "boom")
            else Except.ok 1,
          sawEmit := fun _ _ => none,
          keyHashFunc := String.length, numShards := 2 }
        [⟨"bad", 1⟩, ⟨"bad", 2⟩, ⟨"ok", 3⟩, ⟨"bad", 4⟩]
        (NewMemTable
          { name := "t",
            itemFactory := fun _ key =>
              if key = "bad" then Except.error (SawError.errMsg "boom")
              else Except.ok 1,
            sawEmit := fun _ _ => none,
            keyHashFunc := String.length, numShards := 2 })).2 "bad" ≤ 1 :=
  ⟨(table_factory_at_most_once
      { name := "t",
        itemFactory := fun _ key =>
          if key = "bad" then Except.error (SawError.errMsg "boom")
          else Except.ok 1,
        sawEmit := fun _ _ => none,
        keyHashFunc := String.length, numShards := 2 }
      [⟨"bad", 1⟩, ⟨"bad", 2⟩, ⟨"ok", 3⟩, ⟨"bad", 4⟩] "bad").1,
   (table_factory_at_most_once
      { name := "t",
        itemFactory := fun _ key =>
          if key = "bad" then Except.error (SawError.errMsg "boom")
          else Except.ok 1,
        sawEmit := fun _ _ => none,
        keyHashFunc := String.length, numShards := 2 }
      [⟨"bad", 1⟩, ⟨"bad", 2⟩, ⟨"ok", 3⟩, ⟨"bad", 4⟩] "bad").2.2⟩

end Saw

namespace Saw

/-! ## Claim C5: the resource path round trip. -/

/-- A digit character carries its value. -/
theorem char_ofNat_digit_toNat (d : Nat) (h : d < 10) :
    (Char.ofNat (48 + d)).toNat = 48 + d := by
  interval_cases d <;> decide

/-- A digit character is a digit. -/
theorem isDigitGo_ofNat (d : Nat) (h : d < 10) :
    isDigitGo (Char.ofNat (48 + d)) = true := by
  interval_cases d <;> decide

/-- A digit is not whitespace and none of the structural characters. -/
theorem isDigitGo_facts (c : Char) (h : isDigitGo c = true) :
    isSpaceGo c = false ∧ c ≠ ':' ∧ c ≠ '@' ∧ c ≠ '/' := by
  refine ⟨?_, ?_, ?_, ?_⟩
  · simp only [isSpaceGo, Bool.or_eq_false_iff, decide_eq_false_iff_not]
    refine ⟨⟨⟨⟨?_, ?_⟩, ?_⟩, ?_⟩, ?_⟩ <;>
      · intro hc
        subst hc
        exact absurd h (by decide)
  · intro hc; subst hc; exact absurd h (by decide)
  · intro hc; subst hc; exact absurd h (by decide)
  · intro hc; subst hc; exact absurd h (by decide)

/-- Folding one more digit onto a decimal accumulator. -/
theorem digitsToNat_append_singleton (xs : List Char) (c : Char) :
    digitsToNat (xs ++ [c]) = digitsToNat xs * 10 + (c.toNat - 48) := by
  simp [digitsToNat, List.foldl_append]

/-- With enough fuel, `natDigitsAux` renders a nonempty all-digit string
whose decimal value is the input. -/
theorem natDigitsAux_spec :
    ∀ (fuel n : Nat), n < fuel →
    natDigitsAux fuel n ≠ [] ∧
    (∀ c ∈ natDigitsAux fuel n, isDigitGo c = true) ∧
    digitsToNat (natDigitsAux fuel n) = n := by
  intro fuel
  induction fuel with
  | zero => intro n h; exact absurd h (Nat.not_lt_zero n)
  | succ fuel ih =>
    intro n h
    rw [natDigitsAux]
    by_cases h10 : n < 10
    · rw [if_pos h10]
      refine ⟨by simp, ?_, ?_⟩
      · intro c hc
        simp only [List.mem_singleton] at hc
        subst hc
        exact isDigitGo_ofNat n h10
      · simp only [digitsToNat, List.foldl_cons, List.foldl_nil]
        rw [char_ofNat_digit_toNat n h10]
        omega
    · rw [if_neg h10]
      have hdiv : n / 10 < fuel := by
        have : n / 10 < n := Nat.div_lt_self (by omega) (by omega)
        omega
      have ihd := ih (n / 10) hdiv
      have hmod : n % 10 < 10 := Nat.mod_lt _ (by omega)
      refine ⟨by simp, ?_, ?_⟩
      · intro c hc
        rw [List.mem_append] at hc
        rcases hc with hc | hc
        · exact ihd.2.1 c hc
        · simp only [List.mem_singleton] at hc
          subst hc
          exact isDigitGo_ofNat _ hmod
      · rw [digitsToNat_append_singleton, ihd.2.2,
          char_ofNat_digit_toNat _ hmod]
        omega

/-- Go `natDigits` is nonempty, all digits, and parses back to its input. -/
theorem natDigits_spec (n : Nat) :
    natDigits n ≠ [] ∧ (∀ c ∈ natDigits n, isDigitGo c = true) ∧
    digitsToNat (natDigits n) = n :=
  natDigitsAux_spec (n + 1) n (Nat.lt_succ_self n)

/-- Go `splitAtFirst` misses an absent character. -/
theorem splitAtFirst_not_mem (c : Char) :
    ∀ (l : List Char), c ∉ l → splitAtFirst c l = none := by
  intro l
  induction l with
  | nil => intro _; rfl
  | cons x xs ih =>
    intro h
    rw [List.mem_cons, not_or] at h
    rw [splitAtFirst, if_neg (by exact fun hx => h.1 hx.symm), ih h.2]
    rfl

/-- Go `splitAtFirst` splits at the first occurrence. -/
theorem splitAtFirst_append (c : Char) :
    ∀ (A B : List Char), c ∉ A → splitAtFirst c (A ++ c :: B) = some (A, B) := by
  intro A
  induction A with
  | nil => intro B _; simp [splitAtFirst]
  | cons x xs ih =>
    intro B h
    rw [List.mem_cons, not_or] at h
    rw [List.cons_append, splitAtFirst,
      if_neg (by exact fun hx => h.1 hx.symm), ih B h.2]
    rfl

/-- Go `colonSplits` of a colon-free list is empty. -/
theorem colonSplits_not_mem :
    ∀ (l : List Char), ':' ∉ l → colonSplits l = [] := by
  intro l
  induction l with
  | nil => intro _; rfl
  | cons x xs ih =>
    intro h
    rw [List.mem_cons, not_or] at h
    rw [colonSplits, if_neg (by exact fun hx => h.1 hx.symm), ih h.2]
    rfl

/-- A string with a single colon splits only there. -/
theorem colonSplits_unique (A B : List Char) (hA : ':' ∉ A) (hB : ':' ∉ B) :
    colonSplits (A ++ ':' :: B) = [(A, B)] := by
  induction A with
  | nil =>
    rw [List.nil_append, colonSplits, if_pos rfl, colonSplits_not_mem B hB]
    rfl
  | cons x xs ih =>
    rw [List.mem_cons, not_or] at hA
    rw [List.cons_append, colonSplits,
      if_neg (by exact fun hx => hA.1 hx.symm), ih hA.2]
    rfl

end Saw

namespace Saw

/-- The tail pattern on an at-free remainder. -/
theorem tailMatch_no_at (R : List Char) (hR : '@' ∉ R) (hne : R ≠ [])
    (hw : ∀ c ∈ R, isSpaceGo c = false) :
    tailMatch R = some (R, []) := by
  rw [tailMatch, splitAtFirst_not_mem '@' R hR]
  rw [if_pos]
  simp only [Bool.and_eq_true, Bool.not_eq_true', List.all_eq_true,
    Bool.not_eq_true]
  exact ⟨by simpa using hne, hw⟩

/-- The tail pattern on a remainder with one shard suffix. -/
theorem tailMatch_at (B D : List Char) (hB : '@' ∉ B) (hBne : B ≠ [])
    (hBw : ∀ c ∈ B, isSpaceGo c = false) (hDne : D ≠ [])
    (hDd : ∀ c ∈ D, isDigitGo c = true) :
    tailMatch (B ++ '@' :: D) = some (B, D) := by
  have h1 : tailMatch (B ++ '@' :: D) =
      if !B.isEmpty && B.all (fun ch => !isSpaceGo ch) &&
          !D.isEmpty && D.all isDigitGo
      then some (B, D) else none := by
    rw [tailMatch, splitAtFirst_append '@' B D hB]
  rw [h1, if_pos]
  simp only [Bool.and_eq_true, Bool.not_eq_true', List.all_eq_true,
    Bool.not_eq_true]
  exact ⟨⟨⟨by simpa using hBne, hBw⟩, by simpa using hDne⟩, hDd⟩

/-- The anchored pattern on a well-formed single-colon input. -/
theorem regexMatchPath_wf (F R B D : List Char) (hF : F ≠ [])
    (hFw : ∀ c ∈ F, isSpaceGo c = false) (hFc : ':' ∉ F) (hRc : ':' ∉ R)
    (htm : tailMatch R = some (B, D)) :
    regexMatchPath (F ++ ':' :: R) = some (F, B, D) := by
  rw [regexMatchPath, colonSplits_unique F R hFc hRc]
  have hp : (!(F, R).1.isEmpty &&
      (F, R).1.all (fun ch => !isSpaceGo ch) &&
      (tailMatch (F, R).2).isSome) = true := by
    simp only [Bool.and_eq_true, Bool.not_eq_true', List.all_eq_true,
      Bool.not_eq_true]
    exact ⟨⟨by simpa using hF, hFw⟩, by rw [htm]; rfl⟩
  have hfind : List.find?
      (fun p => !p.1.isEmpty && p.1.all (fun ch => !isSpaceGo ch) &&
        (tailMatch p.2).isSome) [(F, R)] = some (F, R) :=
    List.find?_cons_of_pos [] hp
  rw [List.reverse_singleton, hfind, Option.some_bind]
  show (tailMatch R).map _ = _
  rw [htm]
  rfl

end Saw

namespace Saw

/-- The group-processing phase on an absolute path with a registered media
segment: the media is split off and the shard digits are decoded. -/
theorem parseSpecOfGroups_wf (mediaNames : List (List Char))
    (F M Pt D : List Char) (hMs : '/' ∉ M) (hMreg : M ∈ mediaNames) :
    parseSpecOfGroups mediaNames F ('/' :: (M ++ '/' :: Pt)) D =
      (if D.isEmpty then
        { Format := F, Media := M, Path := '/' :: Pt, NumShards := 0 }
       else
        { Format := F, Media := M, Path := '/' :: Pt,
          NumShards := digitsToNat D }) := by
  unfold parseSpecOfGroups
  simp only [List.headD_cons, List.drop_succ_cons, List.drop_zero,
    if_pos rfl, splitAtFirst_append '/' M Pt hMs, if_pos hMreg]
  split <;> simp

/-- Formatting a spec whose path is absolute: no `./` is inserted, and the
shard suffix appears exactly for a positive count. -/
theorem resourceSpec_string_wf (F M Pt : List Char) (n : Nat) :
    ResourceSpec.String
        { Format := F, Media := M, Path := '/' :: Pt, NumShards := n } =
      some (F ++ ':' :: '/' :: (M ++ ('/' :: Pt) ++
        (if n = 0 then [] else '@' :: natDigits n))) := by
  unfold ResourceSpec.String
  dsimp only
  rw [if_neg (by simp : ¬ (M = localMediaName ∧ ('/' : Char) ≠ '/'))]
  by_cases hn : n = 0
  · subst hn
    rw [if_neg (by simp [ResourceSpec.Sharded] : ¬ (ResourceSpec.Sharded
      { Format := F, Media := M, Path := '/' :: Pt, NumShards := 0 }) = true)]
    simp
  · rw [if_pos (by simp [ResourceSpec.Sharded]; omega : (ResourceSpec.Sharded
      { Format := F, Media := M, Path := '/' :: Pt, NumShards := n }) = true)]
    simp [hn]

/-- C5 (amended): the parse-format round trip holds for well-formed paths
with an explicit registered media segment, both unsharded (`n = 0`, no
suffix) and sharded with a canonical positive shard count; the claim as
stated — including local relative paths — is refuted by
`parse_print_local_relative_mismatch`. -/
theorem parse_print_roundtrip (mediaNames : List (List Char))
    (F M Pt : List Char) (n : Nat)
    (hF : F ≠ []) (hFw : ∀ c ∈ F, isSpaceGo c = false) (hFc : ':' ∉ F)
    (hMw : ∀ c ∈ M, isSpaceGo c = false)
    (hMc : ':' ∉ M) (hMa : '@' ∉ M) (hMs : '/' ∉ M)
    (hMreg : M ∈ mediaNames)
    (hPw : ∀ c ∈ Pt, isSpaceGo c = false)
    (hPc : ':' ∉ Pt) (hPa : '@' ∉ Pt) :
    ParseResourcePath mediaNames
        (F ++ ':' :: '/' :: (M ++ ('/' :: Pt) ++
          (if n = 0 then [] else '@' :: natDigits n))) =
      Except.ok
        { Format := F, Media := M, Path := '/' :: Pt, NumShards := n } ∧
    ResourceSpec.String
        { Format := F, Media := M, Path := '/' :: Pt, NumShards := n } =
      some (F ++ ':' :: '/' :: (M ++ ('/' :: Pt) ++
        (if n = 0 then [] else '@' :: natDigits n))) := by
  have hBw : ∀ c ∈ ('/' :: (M ++ '/' :: Pt)), isSpaceGo c = false := by
    intro c hc
    rcases List.mem_cons.mp hc with rfl | hc
    · decide
    · rcases List.mem_append.mp hc with hc | hc
      · exact hMw c hc
      · rcases List.mem_cons.mp hc with rfl | hc
        · decide
        · exact hPw c hc
  have hBa : '@' ∉ ('/' :: (M ++ '/' :: Pt)) := by
    intro hc
    rcases List.mem_cons.mp hc with hc | hc
    · exact absurd hc (by decide)
    · rcases List.mem_append.mp hc with hc | hc
      · exact hMa hc
      · rcases List.mem_cons.mp hc with hc | hc
        · exact absurd hc (by decide)
        · exact hPa hc
  have hBc : ':' ∉ ('/' :: (M ++ '/' :: Pt)) := by
    intro hc
    rcases List.mem_cons.mp hc with hc | hc
    · exact absurd hc (by decide)
    · rcases List.mem_append.mp hc with hc | hc
      · exact hMc hc
      · rcases List.mem_cons.mp hc with hc | hc
        · exact absurd hc (by decide)
        · exact hPc hc
  have hBne : ('/' :: (M ++ '/' :: Pt)) ≠ [] := by simp
  refine ⟨?_, resourceSpec_string_wf F M Pt n⟩
  by_cases hn : n = 0
  · subst hn
    have hshape : F ++ ':' :: '/' :: (M ++ ('/' :: Pt) ++
        (if (0 : Nat) = 0 then [] else '@' :: natDigits 0)) =
        F ++ ':' :: ('/' :: (M ++ '/' :: Pt)) := by
      simp [List.append_assoc]
    rw [hshape]
    have hregex := regexMatchPath_wf F ('/' :: (M ++ '/' :: Pt))
      ('/' :: (M ++ '/' :: Pt)) [] hF hFw hFc hBc
      (tailMatch_no_at _ hBa hBne hBw)
    rw [ParseResourcePath, hregex]
    dsimp only
    rw [parseSpecOfGroups_wf mediaNames F M Pt [] hMs hMreg]
    rfl
  · have hD := natDigits_spec n
    have hshape : F ++ ':' :: '/' :: (M ++ ('/' :: Pt) ++
        (if n = 0 then [] else '@' :: natDigits n)) =
        F ++ ':' :: (('/' :: (M ++ '/' :: Pt)) ++ '@' :: natDigits n) := by
      rw [if_neg hn]
      simp [List.append_assoc]
    rw [hshape]
    have hRc : ':' ∉ (('/' :: (M ++ '/' :: Pt)) ++ '@' :: natDigits n) := by
      intro hc
      rcases List.mem_append.mp hc with hc | hc
      · exact hBc hc
      · rcases List.mem_cons.mp hc with hc | hc
        · exact absurd hc (by decide)
        · exact (isDigitGo_facts ':' (hD.2.1 ':' hc)).2.1 rfl
    have hregex := regexMatchPath_wf F
      (('/' :: (M ++ '/' :: Pt)) ++ '@' :: natDigits n)
      ('/' :: (M ++ '/' :: Pt)) (natDigits n) hF hFw hFc hRc
      (tailMatch_at _ _ hBa hBne hBw hD.1 hD.2.1)
    rw [ParseResourcePath, hregex]
    dsimp only
    rw [parseSpecOfGroups_wf mediaNames F M Pt (natDigits n) hMs hMreg]
    rw [if_neg (by simpa using hD.1), hD.2.2]

/-- C5 (counterexample): the round trip fails on the local relative path
named in the claim — parsing `recordio:local_path.rio` and formatting the
result yields `recordio:/local./local_path.rio`, a different string. -/
theorem parse_print_local_relative_mismatch :
    ParseResourcePath [] ("recordio:local_path.rio".toList) =
      Except.ok
        { Format := "recordio".toList, Media := localMediaName,
          Path := "local_path.rio".toList, NumShards := 0 } ∧
    ResourceSpec.String
        { Format := "recordio".toList, Media := localMediaName,
          Path := "local_path.rio".toList, NumShards := 0 } =
      some ("recordio:/local./local_path.rio".toList) ∧
    "recordio:/local./local_path.rio".toList ≠
      "recordio:local_path.rio".toList :=
  ⟨rfl, rfl, by decide⟩

/-- Witness for the amended C5 at `cloud:` media, sharded with 64. -/
theorem parse_print_roundtrip_witness :
    ParseResourcePath ["cloud".toList]
        ("textio".toList ++ ':' :: '/' :: ("cloud".toList ++
          ('/' :: "bucket/out.rio".toList) ++
          (if (64 : Nat) = 0 then [] else '@' :: natDigits 64))) =
      Except.ok
        { Format := "textio".toList, Media := "cloud".toList,
          Path := '/' :: "bucket/out.rio".toList, NumShards := 64 } ∧
    ResourceSpec.String
        { Format := "textio".toList, Media := "cloud".toList,
          Path := '/' :: "bucket/out.rio".toList, NumShards := 64 } =
      some ("textio".toList ++ ':' :: '/' :: ("cloud".toList ++
        ('/' :: "bucket/out.rio".toList) ++
        (if (64 : Nat) = 0 then [] else '@' :: natDigits 64))) :=
  parse_print_roundtrip ["cloud".toList] "textio".toList "cloud".toList
    "bucket/out.rio".toList 64 (by decide) (by decide) (by decide)
    (by decide) (by decide) (by decide) (by decide) (by decide)
    (by decide) (by decide) (by decide)

end Saw
